import Mathlib

/-!
Verification of the core of `editingScript.py` (Command-Line-Video-Editing).

The Python source is shallowly embedded below:
  * numbers that Python holds as `float` are modelled as exact rationals `ℚ`;
  * Python exceptions (`ValueError`) become `Option`/`Except` results;
  * the interactive `input()` loop of `ensure_move_frames` is modelled by an
    explicit list of the strings the operator types;
  * the filesystem (directory listing used by `next_output_index`, the JSON
    file backing `load_frame_data`/`save_frame_data`) is modelled by explicit
    values passed in and returned.
All definitions follow the Python source line by line; definitions whose name
begins with `spec` restate the natural-language specification instead and are
only used to compare the two.
-/

/-- Numeric value of a list of decimal digit characters (most significant
first), as used by Python `int(...)` on a digit string. Empty list gives 0. -/
def digitsVal (l : List Char) : ℕ :=
  l.foldl (fun a c => a * 10 + (c.toNat - 48)) 0

/-- Split a character list at the first `'.'`: the part before and the part
after. If there is no dot the whole list is the first component. -/
def splitAtDot : List Char → (List Char × List Char)
  | [] => ([], [])
  | c :: rest =>
    if c = '.' then ([], rest)
    else
      let p := splitAtDot rest
      (c :: p.1, p.2)

/-- Value of a decimal literal made of digits with at most one dot, as parsed
by Python `float(...)` (modelled exactly, in `ℚ`). -/
def decVal (l : List Char) : ℚ :=
  let p := splitAtDot l
  (digitsVal p.1 : ℚ) + (digitsVal p.2 : ℚ) / 10 ^ p.2.length

/-- Python `s.replace(".", "", 1)`: remove the first dot, if any. -/
def removeFirstDot : List Char → List Char
  | [] => []
  | c :: rest => if c = '.' then rest else c :: removeFirstDot rest

/-- Python `str.isdigit` (ASCII model): non-empty and all characters digits. -/
def pyIsDigit (l : List Char) : Bool :=
  !l.isEmpty && l.all Char.isDigit

/-- Python `time_str.split(":")`. `"".split(":") = [""]`. -/
def splitOnColon : List Char → List (List Char)
  | [] => [[]]
  | c :: rest =>
    if c = ':' then [] :: splitOnColon rest
    else
      match splitOnColon rest with
      | [] => [[c]]
      | g :: gs => (c :: g) :: gs

/-- `parse_time_to_seconds` (editingScript.py lines 47-63). Accepts `'ss'` or
`'mm:ss'`; `none` models the raised `ValueError` (the `InvalidTimeFormat`
condition). -/
def parse_time_to_seconds (time_str : String) : Option ℚ :=
  if time_str.data = [] then none
  else
    match splitOnColon time_str.data with
    | [p] =>
      if pyIsDigit (removeFirstDot p) then some (decVal p) else none
    | [m, s] =>
      if pyIsDigit m && pyIsDigit (removeFirstDot s) then
        some ((digitsVal m : ℚ) * 60 + decVal s)
      else none
    | _ => none

/-- Python `int(...)` applied to a float value: truncation toward zero. -/
def pyInt (q : ℚ) : ℤ :=
  if 0 ≤ q then ⌊q⌋ else -⌊-q⌋

/-- `parse_time` (editingScript.py lines 41-44): parse then truncate to whole
seconds for the manual-trim path. -/
def parse_time (time_str : String) : Option ℤ :=
  (parse_time_to_seconds time_str).map pyInt

/-- `FRAME_PAD_FRAMES` (editingScript.py line 12). -/
def FRAME_PAD_FRAMES : ℚ := 13

/-- `DEFAULT_EXTRA_PRE` (editingScript.py line 13), `0.10` seconds. -/
def DEFAULT_EXTRA_PRE : ℚ := 1 / 10

/-- `DEFAULT_EXTRA_POST` (editingScript.py line 14), `0.10` seconds. -/
def DEFAULT_EXTRA_POST : ℚ := 1 / 10

/-- The window computation of `get_clip_range` (editingScript.py lines
136-144), given the frame count that `ensure_move_frames` returned. The
module-level configuration constant `FRAME_PAD_FRAMES` is passed as the
`pad_frames` argument; `none` models the raised `ValueError` (the
`EmptyWindow` condition). -/
def computeWindow (frames fps pad_frames extra_pre extra_post
    center_ts video_duration : ℚ) : Option (ℚ × ℚ) :=
  let duration := frames / fps
  let pad_sec := pad_frames / fps
  let total_pre := duration / 2 + pad_sec + extra_pre
  let total_post := duration / 2 + pad_sec + extra_post
  let start_time := max 0 (center_ts - total_pre)
  let end_time := min video_duration (center_ts + total_post)
  if start_time ≥ end_time then none
  else some (start_time, end_time)

/-- `get_clip_range`'s window computation with the source's default
configuration: `fps = 60.0`, `FRAME_PAD_FRAMES = 13`,
`extra_pre = extra_post = 0.10`. -/
def get_clip_range_window (frames center_ts video_duration : ℚ) :
    Option (ℚ × ℚ) :=
  computeWindow frames 60 FRAME_PAD_FRAMES DEFAULT_EXTRA_PRE
    DEFAULT_EXTRA_POST center_ts video_duration

/-- `normalize_key` (editingScript.py lines 71-73): drop whitespace, lowercase
the remaining characters. -/
def normalize_key (value : String) : String :=
  String.mk ((value.data.filter (fun ch => !ch.isWhitespace)).map Char.toLower)

/-- `sanitize_label` (editingScript.py lines 66-68): keep only the
alphanumeric characters, falling back to `"Unknown"` when nothing is left. -/
def sanitize_label (label : String) : String :=
  let cleaned := label.data.filter Char.isAlphanum
  if cleaned = [] then "Unknown" else String.mk cleaned

/-- A Python `dict` of move name → frame count, as an association list in
insertion order (Python dicts preserve insertion order; keys are unique). -/
abbrev MoveTable := List (String × ℤ)

/-- The frame table: character name → move table. -/
abbrev FrameTable := List (String × MoveTable)

/-- Python `d.get(k)` / `d[k]` on an (insertion-ordered) dict. -/
def alistGet (k : String) (l : List (String × α)) : Option α :=
  (l.find? (fun kv => kv.1 == k)).map (·.2)

/-- Python `d[k] = v`: overwrite in place, or append a new binding. -/
def alistSet (k : String) (v : α) : List (String × α) → List (String × α)
  | [] => [(k, v)]
  | kv :: rest => if kv.1 == k then (k, v) :: rest else kv :: alistSet k v rest

/-- Python `d.setdefault(k, v)`: insert (at the end) only when absent. -/
def alistSetdefault (k : String) (v : α) (l : List (String × α)) :
    List (String × α) :=
  match alistGet k l with
  | some _ => l
  | none => l ++ [(k, v)]

/-- `match_character_name` (editingScript.py lines 76-81): first stored
character key with the same normalized form, else the queried name itself. -/
def match_character_name (name : String) (frame_data : FrameTable) : String :=
  match frame_data.find?
      (fun kv => normalize_key kv.1 == normalize_key name) with
  | some kv => kv.1
  | none => name

/-- `match_move_name` (editingScript.py lines 84-90): same resolution among
the moves stored under `character` (`frame_data.get(character, {})`). -/
def match_move_name (character move : String) (frame_data : FrameTable) :
    String :=
  let moves := (alistGet character frame_data).getD []
  match moves.find? (fun kv => normalize_key kv.1 == normalize_key move) with
  | some kv => kv.1
  | none => move

/-- Python `s.strip()`: drop leading and trailing whitespace. -/
def pyStrip (s : String) : List Char :=
  ((s.data.dropWhile Char.isWhitespace).reverse.dropWhile
    Char.isWhitespace).reverse

/-- `frame_data[char_key].get(move_key)` as used in `ensure_move_frames`. -/
def getCount (ck mk : String) (fd : FrameTable) : Option ℤ :=
  (alistGet ck fd).bind (alistGet mk)

/-- `frame_data[char_key][move_key] = v`. In `ensure_move_frames` the key
`ck` is always present (it was just passed to `setdefault`), so the update is
modelled as mapping over the entries. -/
def setCount (ck mk : String) (v : ℤ) (fd : FrameTable) : FrameTable :=
  fd.map (fun kv => if kv.1 == ck then (kv.1, alistSet mk v kv.2) else kv)

/-- The `while True` loop of `ensure_move_frames` (editingScript.py lines
103-118). `inputs` is the list of strings the operator types at the prompt;
`none` models an operator who never supplies a valid entry (the Python loop
blocks forever). On `user_input.isdigit()` the count is stored and saved;
the next iteration then finds it and returns. -/
def ensureLoop (ck mk : String) : FrameTable → List String →
    Option (ℤ × FrameTable)
  | fd, [] =>
    match getCount ck mk fd with
    | some frames => some (frames, fd)
    | none => none
  | fd, i :: rest =>
    match getCount ck mk fd with
    | some frames => some (frames, fd)
    | none =>
      if (pyStrip i).isEmpty then ensureLoop ck mk fd rest
      else if (pyStrip i).all Char.isDigit then
        ensureLoop ck mk (setCount ck mk (digitsVal (pyStrip i) : ℤ) fd)
          rest
      else ensureLoop ck mk fd rest

/-- `ensure_move_frames` (editingScript.py lines 93-118). Returns the frame
count together with the (possibly updated) frame table. -/
def ensure_move_frames (character move : String) (frame_data : FrameTable)
    (inputs : List String) : Option (ℤ × FrameTable) :=
  ensureLoop (match_character_name character frame_data)
    (match_move_name (match_character_name character frame_data) move
      (alistSetdefault (match_character_name character frame_data) []
        frame_data))
    (alistSetdefault (match_character_name character frame_data) []
      frame_data)
    inputs

/-- Lowercase every character, modelling matching under `re.IGNORECASE`. -/
def lowerList (l : List Char) : List Char := l.map Char.toLower

/-- Strip a (case-already-lowered) trailing `".mp4"`, if present. -/
def stripMp4 (l : List Char) : Option (List Char) :=
  if 4 ≤ l.length ∧ l.drop (l.length - 4) = ['.', 'm', 'p', '4'] then
    some (l.take (l.length - 4))
  else none

/-- `re.compile(rf"{re.escape(prefix)}(\d+)\.mp4$", re.IGNORECASE)` matched
with `pattern.match` against one filename (editingScript.py lines 155-161):
the filename must be the literal prefix, then one or more digits, then
`.mp4`, all case-insensitively; the matched numeric suffix is returned. -/
def matchIndex (pre f : List Char) : Option ℕ :=
  if (lowerList f).take pre.length = lowerList pre then
    match stripMp4 ((lowerList f).drop pre.length) with
    | some ds => if pyIsDigit ds then some (digitsVal ds) else none
    | none => none
  else none

/-- The literal pattern head `f"{sanitize_label(character)}_{sanitize_label(move)}_"`
(editingScript.py line 155). -/
def namePat (character move : String) : List Char :=
  (sanitize_label character).data ++
    '_' :: (sanitize_label move).data ++ ['_']

/-- `next_output_index` (editingScript.py lines 147-162). The filesystem is
abstracted: `listing` is `none` when `out_dir/sanitized(character)/
sanitized(move)` is not a directory, and `some files` gives its entries. -/
def next_output_index (character move : String)
    (listing : Option (List String)) : ℕ :=
  match listing with
  | none => 1
  | some files =>
    let max_idx := files.foldl
      (fun m f =>
        match matchIndex (namePat character move) f.data with
        | some n => max m n
        | none => m) 0
    max_idx + 1

/-- A parsed JSON value as Python sees it: either a JSON object (`dict`,
insertion-ordered) or any non-`dict` value, whose payload is irrelevant to
`load_frame_data` and is abstracted to a tag. -/
inductive PyJson where
  | dict : List (String × PyJson) → PyJson
  | atom : ℕ → PyJson

/-- State of the JSON file backing the frame store: absent, present but not
parsable as JSON (`json.load` raises `ValueError`), or parsed content. -/
inductive StoreContent where
  | missing : StoreContent
  | unparsable : StoreContent
  | parsed : PyJson → StoreContent

/-- `save_frame_data` (editingScript.py lines 35-38): write the table back as
JSON with `sort_keys=True`. Returns the resulting file state. -/
def save_frame_data (data : List (String × PyJson)) : StoreContent :=
  .parsed (.dict (data.mergeSort (fun a b => a.1 ≤ b.1)))

/-- The body of the `try` in `load_frame_data` (editingScript.py lines
24-28): `json.load` (raising `ValueError` on unparsable content) followed by
the `isinstance(data, dict)` check (raising `ValueError` otherwise). The
`.missing` case never reaches this body. -/
def loadBody : StoreContent → Except Unit (List (String × PyJson))
  | .missing => .ok []
  | .unparsable => .error ()
  | .parsed (.dict d) => .ok d
  | .parsed (.atom _) => .error ()

/-- `load_frame_data` (editingScript.py lines 17-32). Takes the state of the
backing file, returns the loaded table and the new file state; the `Except`
layer is the channel of exceptions escaping to the caller. A missing file is
created empty; a `ValueError` from the body is caught, the store is reset
with `save_frame_data({})`, and the empty table returned. -/
def load_frame_data (content : StoreContent) :
    Except Unit (List (String × PyJson) × StoreContent) :=
  match content with
  | .missing => .ok ([], .parsed (.dict []))
  | c =>
    match loadBody c with
    | .ok d => .ok (d, c)
    | .error _ => .ok ([], save_frame_data [])

example : normalize_key " A b" = "ab" := by decide
example : sanitize_label "Low Kick!" = "LowKick" := by decide
example : ensure_move_frames "Ryu" "Hadouken" [] ["0"] =
    some (0, [("Ryu", [("Hadouken", 0)])]) := by decide
example : ensure_move_frames "Ryu" "Hadouken" [] ["", "x2", "40"] =
    some (40, [("Ryu", [("Hadouken", 40)])]) := by decide
example : ensure_move_frames "ryu" "hadouken" [("Ryu", [("Hadouken", 7)])]
    [] = some (7, [("Ryu", [("Hadouken", 7)])]) := by decide
example : next_output_index "Ryu" "Hadouken"
    (some ["Ryu_Hadouken_001.mp4", "Ryu_Hadouken_003.mp4"]) = 4 := by decide
example : next_output_index "Ryu" "Hadouken" (some ["notes.txt"]) = 1 := by
  decide
example : next_output_index "Ryu" "Hadouken" none = 1 := by decide
example : load_frame_data .unparsable =
    .ok ([], .parsed (.dict [])) := by
  simp [load_frame_data, loadBody, save_frame_data]

example : parse_time_to_seconds "1:30.5" = some (181 / 2) := by
  simp +decide [parse_time_to_seconds, splitOnColon, pyIsDigit,
    removeFirstDot, decVal, splitAtDot, digitsVal]
  norm_num
example : parse_time_to_seconds "90" = some 90 := by
  simp +decide [parse_time_to_seconds, splitOnColon, pyIsDigit,
    removeFirstDot, decVal, splitAtDot, digitsVal]
example : parse_time_to_seconds "" = none := by decide
example : parse_time_to_seconds "1:2:3" = none := by decide
example : parse_time_to_seconds "ab" = none := by decide
example : parse_time "1:30.5" = some 90 := by
  simp +decide [parse_time, parse_time_to_seconds, splitOnColon, pyIsDigit,
    removeFirstDot, decVal, splitAtDot, digitsVal, pyInt]
  norm_num
example : get_clip_range_window 60 5 100 = some (251 / 60, 349 / 60) := by
  simp +decide [get_clip_range_window, computeWindow, FRAME_PAD_FRAMES,
    DEFAULT_EXTRA_PRE, DEFAULT_EXTRA_POST]
  norm_num

lemma decVal_nonneg (l : List Char) : 0 ≤ decVal l := by
  unfold decVal
  exact add_nonneg (Nat.cast_nonneg _)
    (div_nonneg (Nat.cast_nonneg _) (pow_nonneg (by norm_num) _))

lemma parse_time_to_seconds_nonneg {s : String} {q : ℚ}
    (h : parse_time_to_seconds s = some q) : 0 ≤ q := by
  unfold parse_time_to_seconds at h
  split at h
  · exact absurd h (by simp)
  · split at h
    · split at h
      · cases h
        exact decVal_nonneg _
      · exact absurd h (by simp)
    · split at h
      · cases h
        exact add_nonneg (mul_nonneg (Nat.cast_nonneg _) (by norm_num))
          (decVal_nonneg _)
      · exact absurd h (by simp)
    · exact absurd h (by simp)

/-- C1: for every frame count, positive fps, extras, center timestamp and
video duration, the window computation of `get_clip_range` either returns a
pair `(start, end)` with `0 ≤ start < end ≤ video_duration`, or fails with
the `EmptyWindow` condition (`none`), and it fails exactly when the clamped
start is at least the clamped end. -/
theorem clip_window_clamped_and_raises_iff
    (frames fps pad_frames extra_pre extra_post center_ts video_duration : ℚ)
    (hfps : 0 < fps) :
    (∀ s e, computeWindow frames fps pad_frames extra_pre extra_post
        center_ts video_duration = some (s, e) →
      0 ≤ s ∧ s < e ∧ e ≤ video_duration) ∧
    (computeWindow frames fps pad_frames extra_pre extra_post
        center_ts video_duration = none ↔
      min video_duration
          (center_ts + (frames / fps / 2 + pad_frames / fps + extra_post)) ≤
        max 0
          (center_ts - (frames / fps / 2 + pad_frames / fps + extra_pre))) := by
  unfold computeWindow
  set st := max 0
    (center_ts - (frames / fps / 2 + pad_frames / fps + extra_pre)) with hst
  set en := min video_duration
    (center_ts + (frames / fps / 2 + pad_frames / fps + extra_post)) with hen
  by_cases h : en ≤ st
  · constructor
    · intro s e hs
      simp [ge_iff_le, h] at hs
    · simp [ge_iff_le, h]
  · constructor
    · intro s e hs
      simp [ge_iff_le, h] at hs
      refine ⟨?_, ?_, ?_⟩
      · rw [← hs.1]
        exact le_max_left _ _
      · rw [← hs.1, ← hs.2]
        exact lt_of_not_le h
      · rw [← hs.2]
        exact min_le_left _ _
    · simp [ge_iff_le, h]

/-- Witness for C1 at a concrete input. -/
theorem clip_window_clamped_and_raises_iff_witness :
    (∀ s e, computeWindow 60 60 13 (1 / 10) (1 / 10) 5 100 = some (s, e) →
      0 ≤ s ∧ s < e ∧ e ≤ 100) ∧
    (computeWindow 60 60 13 (1 / 10) (1 / 10) 5 100 = none ↔
      min 100 ((5 : ℚ) + (60 / 60 / 2 + 13 / 60 + 1 / 10)) ≤
        max 0 ((5 : ℚ) - (60 / 60 / 2 + 13 / 60 + 1 / 10))) :=
  clip_window_clamped_and_raises_iff 60 60 13 (1 / 10) (1 / 10) 5 100
    (by norm_num)

/-- C3: the window computation follows the specified algorithm (move
duration split evenly around the center, frame padding and per-side extras
added, then clamped to `[0, video_duration]`), the configuration defaults
are `fps = 60`, `FRAME_PAD_FRAMES = 13`, extras `0.10`, and the specified
example `frames = 60, fps = 60, center = 5, video_duration = 100` yields the
window `(251/60, 349/60) = (4.18333..., 5.81666...)`. -/
theorem computeWindow_algorithm_and_example :
    FRAME_PAD_FRAMES = 13 ∧
    DEFAULT_EXTRA_PRE = 1 / 10 ∧
    DEFAULT_EXTRA_POST = 1 / 10 ∧
    (∀ frames fps pad_frames extra_pre extra_post center_ts
        video_duration : ℚ, 0 < fps →
      computeWindow frames fps pad_frames extra_pre extra_post center_ts
          video_duration =
        (let moveDuration := frames / fps
         let padSeconds := pad_frames / fps
         let totalPre := moveDuration / 2 + padSeconds + extra_pre
         let totalPost := moveDuration / 2 + padSeconds + extra_post
         let start := max 0 (center_ts - totalPre)
         let stop := min video_duration (center_ts + totalPost)
         if start ≥ stop then none else some (start, stop))) ∧
    get_clip_range_window 60 5 100 = some (251 / 60, 349 / 60) := by
  refine ⟨rfl, rfl, rfl, fun _ _ _ _ _ _ _ _ => rfl, ?_⟩
  simp +decide [get_clip_range_window, computeWindow, FRAME_PAD_FRAMES,
    DEFAULT_EXTRA_PRE, DEFAULT_EXTRA_POST]
  norm_num

/-- Witness for C3 at a concrete input. -/
theorem computeWindow_algorithm_and_example_witness :
    computeWindow 60 60 13 (1 / 10) (1 / 10) 5 100 =
      (let moveDuration := (60 : ℚ) / 60
       let padSeconds := (13 : ℚ) / 60
       let totalPre := moveDuration / 2 + padSeconds + 1 / 10
       let totalPost := moveDuration / 2 + padSeconds + 1 / 10
       let start := max 0 (5 - totalPre)
       let stop := min 100 (5 + totalPost)
       if start ≥ stop then none else some (start, stop)) :=
  computeWindow_algorithm_and_example.2.2.2.1 60 60 13 (1 / 10) (1 / 10) 5
    100 (by norm_num)

/-- C7: `load_frame_data` never raises to its caller: a missing file is
created empty and the empty table returned; unparsable content or content
that is not a mapping resets the store to an empty table (a valid empty JSON
object) and returns the empty table; a parsed mapping is returned as is. -/
theorem load_frame_data_never_raises :
    (∀ c, ∃ r, load_frame_data c = .ok r) ∧
    load_frame_data .missing = .ok ([], .parsed (.dict [])) ∧
    load_frame_data .unparsable = .ok ([], .parsed (.dict [])) ∧
    (∀ t, load_frame_data (.parsed (.atom t)) =
      .ok ([], .parsed (.dict []))) ∧
    (∀ d, load_frame_data (.parsed (.dict d)) =
      .ok (d, .parsed (.dict d))) := by
  refine ⟨fun c => ?_, rfl, ?_, fun t => ?_, fun d => rfl⟩
  case refine_2 => simp [load_frame_data, loadBody, save_frame_data]
  case refine_3 => simp [load_frame_data, loadBody, save_frame_data]
  cases c with
  | missing => exact ⟨_, rfl⟩
  | unparsable => exact ⟨_, rfl⟩
  | parsed v => cases v with
    | dict d => exact ⟨_, rfl⟩
    | atom t => exact ⟨_, rfl⟩

/-- C10: in the manual-trim path, `parse_time` truncates every value accepted
by `parse_time_to_seconds` to whole seconds (the floor, all parsed values
being non-negative), so fractional timestamps lose their sub-second part. -/
theorem parse_time_truncates (s : String) (q : ℚ)
    (h : parse_time_to_seconds s = some q) : parse_time s = some ⌊q⌋ := by
  have hq : 0 ≤ q := parse_time_to_seconds_nonneg h
  unfold parse_time
  rw [h]
  simp [pyInt, hq]

/-- Witness for C10: `'1:30.5'` parses to `90.5` seconds but manual trimming
uses `90`. -/
theorem parse_time_truncates_witness : parse_time "1:30.5" = some ⌊(181 : ℚ) / 2⌋ :=
  parse_time_truncates "1:30.5" (181 / 2)
    (by
      simp +decide [parse_time_to_seconds, splitOnColon, pyIsDigit,
        removeFirstDot, decVal, splitAtDot, digitsVal]
      norm_num)

/-- C2: the interactive validation of `ensure_move_frames` accepts the
non-empty digit-only input `"0"` — `"0".isdigit()` holds — and stores a frame
count of zero in the table, contradicting the positive-count invariant (and
the code's own prompt, which asks for a positive integer). -/
theorem ensure_move_frames_stores_zero :
    ensure_move_frames "Ryu" "Hadouken" [] ["0"] =
      some (0, [("Ryu", [("Hadouken", 0)])]) := by decide

lemma foldl_optMax (g : String → Option ℕ) (files : List String) (a : ℕ) :
    files.foldl
        (fun m f =>
          match g f with
          | some n => max m n
          | none => m) a =
      max a ((files.filterMap g).foldr max 0) := by
  induction files generalizing a with
  | nil => simp
  | cons f fs ih =>
    cases hg : g f <;>
      simp [List.foldl_cons, List.filterMap_cons, hg, ih, max_assoc]

/-- C5: `next_output_index` always returns at least 1; it returns 1 when the
sanitized character/move directory does not exist and when no file in it
matches the pattern `sanitizedCharacter_sanitizedMove_<digits>.mp4`
(case-insensitively); in general it returns 1 plus the maximum matched
numeric suffix, and on a directory holding `Ryu_Hadouken_001.mp4` and
`Ryu_Hadouken_003.mp4` it returns 4. -/
theorem next_output_index_spec :
    (∀ character move : String, 1 ≤ next_output_index character move none ∧
      (∀ files, 1 ≤ next_output_index character move (some files))) ∧
    (∀ character move : String,
      next_output_index character move none = 1) ∧
    (∀ (character move : String) (files : List String),
      (∀ f ∈ files, matchIndex (namePat character move) f.data = none) →
      next_output_index character move (some files) = 1) ∧
    (∀ (character move : String) (files : List String),
      next_output_index character move (some files) =
        ((files.filterMap
            (fun f => matchIndex (namePat character move) f.data)).foldr
          max 0) + 1) ∧
    next_output_index "Ryu" "Hadouken"
      (some ["Ryu_Hadouken_001.mp4", "Ryu_Hadouken_003.mp4"]) = 4 := by
  have hgen : ∀ (character move : String) (files : List String),
      next_output_index character move (some files) =
        ((files.filterMap
            (fun f => matchIndex (namePat character move) f.data)).foldr
          max 0) + 1 := by
    intro character move files
    simp [next_output_index, foldl_optMax]
  refine ⟨fun c m => ⟨le_refl 1, fun files => ?_⟩, fun c m => rfl,
    fun c m files h => ?_, hgen, by decide⟩
  · rw [hgen]
    omega
  · rw [hgen]
    have : files.filterMap
        (fun f => matchIndex (namePat c m) f.data) = [] := by
      simp [List.filterMap_eq_nil_iff]
      exact fun f hf => h f hf
    simp [this]

/-- Witness for C5 at a concrete input: a directory with no matching file
yields index 1. -/
theorem next_output_index_spec_witness :
    next_output_index "Ryu" "Hadouken" (some ["notes.txt"]) = 1 :=
  next_output_index_spec.2.2.1 "Ryu" "Hadouken" ["notes.txt"] (by decide)

lemma match_character_name_mem {name : String} {fd : FrameTable}
    (h : ∃ k ∈ fd.map Prod.fst, normalize_key k = normalize_key name) :
    match_character_name name fd ∈ fd.map Prod.fst ∧
      normalize_key (match_character_name name fd) = normalize_key name := by
  unfold match_character_name
  cases hf : fd.find? (fun kv => normalize_key kv.1 == normalize_key name) with
  | some kv =>
    have hm := List.mem_of_find?_eq_some hf
    have hp := List.find?_some hf
    rw [beq_iff_eq] at hp
    exact ⟨List.mem_map_of_mem Prod.fst hm, hp⟩
  | none =>
    rw [List.find?_eq_none] at hf
    obtain ⟨k, hk, hnk⟩ := h
    obtain ⟨kv, hkv, rfl⟩ := List.mem_map.1 hk
    exact absurd (by rw [beq_iff_eq]; exact hnk) (hf kv hkv)

lemma match_character_name_self {name : String} {fd : FrameTable}
    (h : ∀ k ∈ fd.map Prod.fst, normalize_key k ≠ normalize_key name) :
    match_character_name name fd = name := by
  unfold match_character_name
  cases hf : fd.find? (fun kv => normalize_key kv.1 == normalize_key name) with
  | some kv =>
    have hm := List.mem_of_find?_eq_some hf
    have hp := List.find?_some hf
    rw [beq_iff_eq] at hp
    exact absurd hp (h kv.1 (List.mem_map_of_mem Prod.fst hm))
  | none => rfl

/-- C6: `match_character_name` and `match_move_name` return a pre-existing
stored key (one whose normalized form equals the queried name's normalized
form) whenever such a key exists at the relevant mapping level, and return
the literal query unchanged when no stored key normalizes equal to it. -/
theorem name_resolution_spec :
    (∀ (name : String) (fd : FrameTable),
      ((∃ k ∈ fd.map Prod.fst, normalize_key k = normalize_key name) →
        match_character_name name fd ∈ fd.map Prod.fst ∧
          normalize_key (match_character_name name fd) =
            normalize_key name) ∧
      ((∀ k ∈ fd.map Prod.fst, normalize_key k ≠ normalize_key name) →
        match_character_name name fd = name)) ∧
    (∀ (character move : String) (fd : FrameTable),
      ((∃ k ∈ ((alistGet character fd).getD []).map Prod.fst,
          normalize_key k = normalize_key move) →
        match_move_name character move fd ∈
            ((alistGet character fd).getD []).map Prod.fst ∧
          normalize_key (match_move_name character move fd) =
            normalize_key move) ∧
      ((∀ k ∈ ((alistGet character fd).getD []).map Prod.fst,
          normalize_key k ≠ normalize_key move) →
        match_move_name character move fd = move)) := by
  refine ⟨fun name fd => ⟨match_character_name_mem, match_character_name_self⟩,
    fun character move fd => ⟨fun h => ?_, fun h => ?_⟩⟩
  · have hdef : match_move_name character move fd =
        match ((alistGet character fd).getD []).find?
          (fun kv => normalize_key kv.1 == normalize_key move) with
        | some kv => kv.1
        | none => move := rfl
    rw [hdef]
    cases hf : ((alistGet character fd).getD []).find?
        (fun kv => normalize_key kv.1 == normalize_key move) with
    | some kv =>
      have hm := List.mem_of_find?_eq_some hf
      have hp := List.find?_some hf
      rw [beq_iff_eq] at hp
      exact ⟨List.mem_map_of_mem Prod.fst hm, hp⟩
    | none =>
      rw [List.find?_eq_none] at hf
      obtain ⟨k, hk, hnk⟩ := h
      obtain ⟨kv, hkv, rfl⟩ := List.mem_map.1 hk
      exact absurd (by rw [beq_iff_eq]; exact hnk) (hf kv hkv)
  · have hdef : match_move_name character move fd =
        match ((alistGet character fd).getD []).find?
          (fun kv => normalize_key kv.1 == normalize_key move) with
        | some kv => kv.1
        | none => move := rfl
    rw [hdef]
    cases hf : ((alistGet character fd).getD []).find?
        (fun kv => normalize_key kv.1 == normalize_key move) with
    | some kv =>
      have hm := List.mem_of_find?_eq_some hf
      have hp := List.find?_some hf
      rw [beq_iff_eq] at hp
      exact absurd hp (h kv.1 (List.mem_map_of_mem Prod.fst hm))
    | none => rfl

/-- Witness for C6 at a concrete input: querying `"R Y U"` against the stored
key `"Ryu"` resolves to a stored key with the same normalized form. -/
theorem name_resolution_spec_witness :
    match_character_name "R Y U" [("Ryu", [("Hadouken", 40)])] ∈
        ([("Ryu", [("Hadouken", 40)])] : FrameTable).map Prod.fst ∧
      normalize_key
          (match_character_name "R Y U" [("Ryu", [("Hadouken", 40)])]) =
        normalize_key "R Y U" :=
  (name_resolution_spec.1 "R Y U" [("Ryu", [("Hadouken", 40)])]).1
    ⟨"Ryu", by decide, by decide⟩

/-- Specification-side predicate (from the spec's words): a plain numeric
part — digit characters, possibly with one decimal point (the CLI accepts
"plain seconds, possibly fractional"), holding at least one digit. -/
def specNumeric (l : List Char) : Prop :=
  (∀ c ∈ l, c.isDigit = true ∨ c = '.') ∧ l.count '.' ≤ 1 ∧
    ∃ c ∈ l, c.isDigit = true

/-- Specification-side predicate (from the spec's words): a malformed time
string — empty, more than one colon, or non-numeric parts. -/
def specMalformed (s : String) : Prop :=
  s.data = [] ∨ 2 ≤ s.data.count ':' ∨
    (match splitOnColon s.data with
     | [p] => ¬ specNumeric p
     | [m, sec] => ¬ (pyIsDigit m = true ∧ specNumeric sec)
     | _ => True)

instance (l : List Char) : Decidable (specNumeric l) := by
  unfold specNumeric
  infer_instance

lemma mem_removeFirstDot {x : Char} (hx : x ≠ '.') {l : List Char}
    (h : x ∈ l) : x ∈ removeFirstDot l := by
  induction l with
  | nil => cases h
  | cons c rest ih =>
    by_cases hc : c = '.'
    · subst hc
      simp [removeFirstDot]
      cases h with
      | head => exact absurd rfl hx
      | tail _ h => exact h
    · simp [removeFirstDot, hc]
      cases h with
      | head => exact Or.inl rfl
      | tail _ h => exact Or.inr (ih h)

lemma removeFirstDot_subset {x : Char} {l : List Char}
    (h : x ∈ removeFirstDot l) : x ∈ l := by
  induction l with
  | nil => cases h
  | cons c rest ih =>
    by_cases hc : c = '.'
    · subst hc
      simp [removeFirstDot] at h
      exact List.mem_cons_of_mem _ h
    · simp [removeFirstDot, hc] at h
      cases h with
      | inl h => exact h ▸ List.mem_cons_self c rest
      | inr h => exact List.mem_cons_of_mem _ (ih h)

lemma removeFirstDot_cons_dot (rest : List Char) :
    removeFirstDot ('.' :: rest) = rest := by
  simp [removeFirstDot]

lemma removeFirstDot_cons_ne {c : Char} (hc : c ≠ '.') (rest : List Char) :
    removeFirstDot (c :: rest) = c :: removeFirstDot rest := by
  simp [removeFirstDot, hc]

lemma all_digit_removeFirstDot (l : List Char) :
    (removeFirstDot l).all Char.isDigit = true ↔
      (∀ c ∈ l, c.isDigit = true ∨ c = '.') ∧ l.count '.' ≤ 1 := by
  induction l with
  | nil => simp [removeFirstDot]
  | cons c rest ih =>
    by_cases hc : c = '.'
    · subst hc
      rw [removeFirstDot_cons_dot, List.count_cons_self, List.all_eq_true]
      constructor
      · intro h
        have hnot : '.' ∉ rest := fun hm => by
          have := h _ hm
          simp at this
        refine ⟨?_, ?_⟩
        · intro x hx
          rcases List.mem_cons.1 hx with rfl | hx
          · exact Or.inr rfl
          · exact Or.inl (h x hx)
        · rw [List.count_eq_zero.2 hnot]
      · rintro ⟨hdd, hcount⟩
        intro x hx
        rcases hdd x (List.mem_cons_of_mem _ hx) with h1 | rfl
        · exact h1
        · exfalso
          have : 1 ≤ rest.count '.' := List.one_le_count_iff.2 hx
          omega
    · rw [removeFirstDot_cons_ne hc, List.all_cons, Bool.and_eq_true, ih,
        List.count_cons_of_ne (Ne.symm hc)]
      constructor
      · rintro ⟨h1, h2, h3⟩
        refine ⟨?_, h3⟩
        intro x hx
        rcases List.mem_cons.1 hx with rfl | hx
        · exact Or.inl h1
        · exact h2 x hx
      · rintro ⟨hdd, hcount⟩
        have h1 := hdd c (List.mem_cons_self c rest)
        rw [or_iff_left hc] at h1
        exact ⟨h1, fun x hx => hdd x (List.mem_cons_of_mem _ hx), hcount⟩

lemma specNumeric_iff_code (l : List Char) :
    specNumeric l ↔ pyIsDigit (removeFirstDot l) = true := by
  unfold specNumeric pyIsDigit
  rw [Bool.and_eq_true, Bool.not_eq_true']
  constructor
  · rintro ⟨hdd, hcount, x, hx, hdig⟩
    have hall := (all_digit_removeFirstDot l).2 ⟨hdd, hcount⟩
    have hxd : x ≠ '.' := by
      rintro rfl
      simp at hdig
    have hxmem : x ∈ removeFirstDot l := mem_removeFirstDot hxd hx
    refine ⟨?_, hall⟩
    have hne : removeFirstDot l ≠ [] := List.ne_nil_of_mem hxmem
    simpa [List.isEmpty_iff] using hne
  · rintro ⟨hne, hall⟩
    obtain ⟨hdd, hcount⟩ := (all_digit_removeFirstDot l).1 hall
    have hne' : removeFirstDot l ≠ [] := by
      simpa [List.isEmpty_iff] using hne
    obtain ⟨x, hx⟩ := List.exists_mem_of_ne_nil _ hne'
    rw [List.all_eq_true] at hall
    exact ⟨hdd, hcount, x, removeFirstDot_subset hx, hall x hx⟩

lemma no_colon_of_specNumeric {l : List Char} (h : specNumeric l) :
    ':' ∉ l := by
  intro hmem
  have := h.1 ':' hmem
  simp at this

lemma no_colon_of_pyIsDigit {l : List Char} (h : pyIsDigit l = true) :
    ':' ∉ l := by
  intro hmem
  unfold pyIsDigit at h
  rw [Bool.and_eq_true, List.all_eq_true] at h
  have := h.2 ':' hmem
  simp at this

lemma splitOnColon_no_colon {l : List Char} (h : ':' ∉ l) :
    splitOnColon l = [l] := by
  induction l with
  | nil => rfl
  | cons c rest ih =>
    have hc : ¬ c = ':' := fun hc => h (hc ▸ List.mem_cons_self c rest)
    have hr := ih (fun hm => h (List.mem_cons_of_mem _ hm))
    simp [splitOnColon, hc, hr]

lemma splitOnColon_append {a b : List Char} (h : ':' ∉ a) :
    splitOnColon (a ++ ':' :: b) = a :: splitOnColon b := by
  induction a with
  | nil => simp [splitOnColon]
  | cons c a' ih =>
    have hc : ¬ c = ':' := fun hc => h (hc ▸ List.mem_cons_self c a')
    have hr := ih (fun hm => h (List.mem_cons_of_mem _ hm))
    simp [splitOnColon, hc, hr]

lemma length_splitOnColon (l : List Char) :
    (splitOnColon l).length = l.count ':' + 1 := by
  induction l with
  | nil => rfl
  | cons c rest ih =>
    by_cases hc : c = ':'
    · subst hc
      simp [splitOnColon, List.count_cons_self, ih]
    · cases hs : splitOnColon rest with
      | nil => rw [hs] at ih; simp at ih
      | cons g gs =>
        rw [hs] at ih
        simp only [splitOnColon, if_neg hc, hs,
          List.count_cons_of_ne (by exact fun h => hc h.symm)]
        simpa using ih

lemma parse_mk (l : List Char) :
    parse_time_to_seconds (String.mk l) =
      if l = [] then none
      else
        match splitOnColon l with
        | [p] =>
          if pyIsDigit (removeFirstDot p) then some (decVal p) else none
        | [m, s] =>
          if pyIsDigit m && pyIsDigit (removeFirstDot s) then
            some ((digitsVal m : ℚ) * 60 + decVal s)
          else none
        | _ => none := rfl

/-- C4: for every valid `mm:ss` string `parse_time_to_seconds` returns
`minutes*60 + seconds` exactly; for every plain numeric string it returns the
numeric value unchanged; and it fails with the `InvalidTimeFormat` condition
(`none`) exactly on the malformed strings — empty, more than one colon, or
non-numeric parts. -/
theorem parse_time_to_seconds_spec :
    (∀ m sec : List Char, pyIsDigit m = true → specNumeric sec →
      parse_time_to_seconds (String.mk (m ++ ':' :: sec)) =
        some ((digitsVal m : ℚ) * 60 + decVal sec)) ∧
    (∀ p : List Char, specNumeric p →
      parse_time_to_seconds (String.mk p) = some (decVal p)) ∧
    (∀ s : String, parse_time_to_seconds s = none ↔ specMalformed s) := by
  refine ⟨?_, ?_, ?_⟩
  · intro m sec hm hsec
    have hmc := no_colon_of_pyIsDigit hm
    have hsc := no_colon_of_specNumeric hsec
    have hsd := (specNumeric_iff_code sec).1 hsec
    rw [parse_mk, if_neg (by simp), splitOnColon_append hmc,
      splitOnColon_no_colon hsc]
    simp [hm, hsd]
  · intro p hp
    have hpc := no_colon_of_specNumeric hp
    have hpd := (specNumeric_iff_code p).1 hp
    have hpe : p ≠ [] := by
      rintro rfl
      obtain ⟨c, hc, _⟩ := hp.2.2
      cases hc
    rw [parse_mk, if_neg hpe, splitOnColon_no_colon hpc]
    simp [hpd]
  · intro s
    by_cases hs : s.data = []
    · constructor
      · intro _
        exact Or.inl hs
      · intro _
        unfold parse_time_to_seconds
        rw [if_pos hs]
    · have hlen := length_splitOnColon s.data
      unfold parse_time_to_seconds specMalformed
      rw [if_neg hs]
      cases hsp : splitOnColon s.data with
      | nil =>
        rw [hsp] at hlen
        simp at hlen
      | cons g gs =>
        cases gs with
        | nil =>
          rw [hsp] at hlen
          simp only [List.length_singleton] at hlen
          show (if pyIsDigit (removeFirstDot g) then some (decVal g)
            else none) = none ↔ s.data = [] ∨ 2 ≤ s.data.count ':' ∨
              ¬ specNumeric g
          rw [specNumeric_iff_code]
          constructor
          · intro h
            refine Or.inr (Or.inr ?_)
            intro habs
            rw [if_pos habs] at h
            cases h
          · rintro (h | h | h)
            · exact absurd h hs
            · omega
            · rw [if_neg h]
        | cons g2 gs2 =>
          cases gs2 with
          | nil =>
            rw [hsp] at hlen
            simp only [List.length_cons, List.length_singleton,
              List.length_nil] at hlen
            show (if pyIsDigit g && pyIsDigit (removeFirstDot g2) then
                some ((digitsVal g : ℚ) * 60 + decVal g2)
              else none) = none ↔ s.data = [] ∨ 2 ≤ s.data.count ':' ∨
                ¬ (pyIsDigit g = true ∧ specNumeric g2)
            constructor
            · intro h
              refine Or.inr (Or.inr ?_)
              rintro ⟨h1, h2⟩
              rw [specNumeric_iff_code] at h2
              rw [if_pos (by rw [Bool.and_eq_true]; exact ⟨h1, h2⟩)] at h
              cases h
            · rintro (h | h | h)
              · exact absurd h hs
              · omega
              · refine if_neg ?_
                rw [Bool.and_eq_true]
                rintro ⟨h1, h2⟩
                exact h ⟨h1, (specNumeric_iff_code g2).2 h2⟩
          | cons g3 gs3 =>
            have h2c : 2 ≤ s.data.count ':' := by
              rw [hsp] at hlen
              simp only [List.length_cons] at hlen
              omega
            show none = none ↔ s.data = [] ∨ 2 ≤ s.data.count ':' ∨ True
            simp [h2c]

/-- Witness for C4 at a concrete input: `'1:30.5'` is a valid `mm:ss` string
and parses to `1*60 + 30.5`. -/
theorem parse_time_to_seconds_spec_witness :
    parse_time_to_seconds (String.mk (['1'] ++ ':' :: ['3', '0', '.', '5'])) =
      some ((digitsVal ['1'] : ℚ) * 60 + decVal ['3', '0', '.', '5']) :=
  parse_time_to_seconds_spec.1 ['1'] ['3', '0', '.', '5'] (by decide)
    (by decide)

lemma char_eq_of_toNat_eq {a b : Char} (h : a.toNat = b.toNat) : a = b :=
  Char.ext (UInt32.ext h)

lemma char_toNat_ofNat {n : ℕ} (h : n < 55296) : (Char.ofNat n).toNat = n := by
  have hv : n.isValidChar := Or.inl h
  rw [Char.ofNat, dif_pos hv]
  rfl

lemma toLower_eq (c : Char) :
    Char.toLower c =
      if c.toNat ≥ 65 ∧ c.toNat ≤ 90 then Char.ofNat (c.toNat + 32) else c :=
  rfl

lemma toUpper_eq (c : Char) :
    Char.toUpper c =
      if c.toNat ≥ 97 ∧ c.toNat ≤ 122 then Char.ofNat (c.toNat - 32)
      else c :=
  rfl

lemma toNat_toLower (c : Char) :
    c.toLower.toNat =
      if c.toNat ≥ 65 ∧ c.toNat ≤ 90 then c.toNat + 32 else c.toNat := by
  rw [toLower_eq]
  split
  · next h => exact char_toNat_ofNat (by omega)
  · rfl

lemma toNat_toUpper (c : Char) :
    c.toUpper.toNat =
      if c.toNat ≥ 97 ∧ c.toNat ≤ 122 then c.toNat - 32 else c.toNat := by
  rw [toUpper_eq]
  split
  · next h => exact char_toNat_ofNat (by omega)
  · rfl

lemma toLower_toLower (c : Char) : c.toLower.toLower = c.toLower := by
  apply char_eq_of_toNat_eq
  rw [toNat_toLower, toNat_toLower]
  split_ifs <;> omega

lemma toLower_toUpper (c : Char) : c.toUpper.toLower = c.toLower := by
  apply char_eq_of_toNat_eq
  rw [toNat_toLower, toNat_toUpper, toNat_toLower]
  split_ifs <;> omega

lemma isWhitespace_iff_toNat (c : Char) :
    c.isWhitespace =
      (decide (c.toNat = 32) || decide (c.toNat = 9) ||
        decide (c.toNat = 13) || decide (c.toNat = 10)) := by
  rw [Char.isWhitespace]
  have h : ∀ d : Char, decide (c = d) = decide (c.toNat = d.toNat) := by
    intro d
    simp only [decide_eq_decide]
    constructor
    · rintro rfl; rfl
    · exact char_eq_of_toNat_eq
  rw [h ' ', h '\t', h '\r', h '\n']
  rfl

lemma isWhitespace_toLower (c : Char) :
    c.toLower.isWhitespace = c.isWhitespace := by
  rw [isWhitespace_iff_toNat, isWhitespace_iff_toNat c, toNat_toLower]
  split
  · next h =>
    have l : (decide (c.toNat + 32 = 32) || decide (c.toNat + 32 = 9) ||
        decide (c.toNat + 32 = 13) || decide (c.toNat + 32 = 10)) = false := by
      simp only [Bool.or_eq_false_iff, decide_eq_false_iff_not]
      omega
    have r : (decide (c.toNat = 32) || decide (c.toNat = 9) ||
        decide (c.toNat = 13) || decide (c.toNat = 10)) = false := by
      simp only [Bool.or_eq_false_iff, decide_eq_false_iff_not]
      omega
    rw [l, r]
  · rfl

lemma isWhitespace_toUpper (c : Char) :
    c.toUpper.isWhitespace = c.isWhitespace := by
  rw [isWhitespace_iff_toNat, isWhitespace_iff_toNat c, toNat_toUpper]
  split
  · next h =>
    have l : (decide (c.toNat - 32 = 32) || decide (c.toNat - 32 = 9) ||
        decide (c.toNat - 32 = 13) || decide (c.toNat - 32 = 10)) = false := by
      simp only [Bool.or_eq_false_iff, decide_eq_false_iff_not]
      omega
    have r : (decide (c.toNat = 32) || decide (c.toNat = 9) ||
        decide (c.toNat = 13) || decide (c.toNat = 10)) = false := by
      simp only [Bool.or_eq_false_iff, decide_eq_false_iff_not]
      omega
    rw [l, r]
  · rfl

/-- C8: `normalize_key` is idempotent, depends only on the sequence of
non-whitespace characters up to case (so it is invariant under whitespace
insertion or removal and case changes that preserve that sequence), and maps
the empty string to the empty string. -/
theorem normalize_key_algebra :
    (∀ s : String, normalize_key (normalize_key s) = normalize_key s) ∧
    (∀ s t : String,
      (s.data.filter fun ch => !ch.isWhitespace).map Char.toLower =
        (t.data.filter fun ch => !ch.isWhitespace).map Char.toLower →
      normalize_key s = normalize_key t) ∧
    (∀ u v : List Char, ∀ ch : Char, ch.isWhitespace = true →
      normalize_key (String.mk (u ++ ch :: v)) =
        normalize_key (String.mk (u ++ v))) ∧
    (∀ s : String,
      normalize_key (String.mk (s.data.map Char.toUpper)) =
        normalize_key s) ∧
    normalize_key "" = "" := by
  refine ⟨fun s => ?_, fun s t h => congrArg String.mk h,
    fun u v ch hch => ?_, fun s => ?_, rfl⟩
  · unfold normalize_key
    apply congrArg String.mk
    show ((((s.data.filter fun ch => !ch.isWhitespace).map
      Char.toLower).filter fun ch => !ch.isWhitespace).map Char.toLower) = _
    rw [List.filter_map]
    have hpf : ((fun ch => !ch.isWhitespace) ∘ Char.toLower) =
        (fun ch => !ch.isWhitespace) := by
      funext c
      simp [Function.comp, isWhitespace_toLower]
    rw [hpf, List.filter_filter]
    simp only [Bool.and_self, List.map_map]
    have hll : (Char.toLower ∘ Char.toLower) = Char.toLower := by
      funext c
      exact toLower_toLower c
    rw [hll]
  · unfold normalize_key
    apply congrArg String.mk
    show ((u ++ ch :: v).filter fun c => !c.isWhitespace).map Char.toLower =
      ((u ++ v).filter fun c => !c.isWhitespace).map Char.toLower
    rw [List.filter_append, List.filter_append, List.filter_cons_of_neg]
    simp [hch]
  · unfold normalize_key
    apply congrArg String.mk
    show (((s.data.map Char.toUpper).filter
        fun ch => !ch.isWhitespace).map Char.toLower) = _
    rw [List.filter_map]
    have hpf : ((fun ch => !ch.isWhitespace) ∘ Char.toUpper) =
        (fun ch => !ch.isWhitespace) := by
      funext c
      simp [Function.comp, isWhitespace_toUpper]
    rw [hpf, List.map_map]
    have hlu : (Char.toLower ∘ Char.toUpper) = Char.toLower := by
      funext c
      exact toLower_toUpper c
    rw [hlu]

/-- Witness for C8 at concrete inputs: `" A b"` and `"ab"` normalize equal,
and inserting a space does not change the normalized key. -/
theorem normalize_key_algebra_witness :
    normalize_key " A b" = normalize_key "ab" ∧
    normalize_key (String.mk (['a'] ++ ' ' :: ['b'])) =
      normalize_key (String.mk (['a'] ++ ['b'])) :=
  ⟨normalize_key_algebra.2.1 " A b" "ab" (by decide),
   normalize_key_algebra.2.2.1 ['a'] ['b'] ' ' (by decide)⟩

/-- No two keys at one mapping level normalize to the same comparison key. -/
def NoNormDup (keys : List String) : Prop :=
  keys.Pairwise (fun a b => normalize_key a ≠ normalize_key b)

/-- The invariant of the frame table: no normalized duplicates among the
character keys, nor among the move keys of any character. -/
def TableInv (fd : FrameTable) : Prop :=
  NoNormDup (fd.map Prod.fst) ∧ ∀ kv ∈ fd, NoNormDup (kv.2.map Prod.fst)

lemma NoNormDup.nodup {keys : List String} (h : NoNormDup keys) :
    keys.Nodup :=
  h.imp (fun hne heq => hne (by rw [heq]))

lemma alistGet_cons (k : String) (kv : String × α) (l : List (String × α)) :
    alistGet k (kv :: l) = if kv.1 = k then some kv.2 else alistGet k l := by
  unfold alistGet
  rw [List.find?_cons]
  by_cases h : kv.1 = k
  · rw [show (kv.1 == k) = true from by rw [beq_iff_eq]; exact h, if_pos h]
    rfl
  · rw [show (kv.1 == k) = false from by rw [beq_eq_false_iff_ne]; exact h,
      if_neg h]

lemma alistSet_cons (k : String) (v : α) (kv : String × α)
    (l : List (String × α)) :
    alistSet k v (kv :: l) =
      if kv.1 = k then (k, v) :: l else kv :: alistSet k v l := by
  by_cases h : kv.1 = k
  · simp only [alistSet]
    rw [if_pos (by rw [beq_iff_eq]; exact h), if_pos h]
  · simp only [alistSet]
    rw [if_neg (by rw [beq_iff_eq]; exact h), if_neg h]

lemma setCount_cons (ck mk : String) (v : ℤ) (kv : String × MoveTable)
    (l : FrameTable) :
    setCount ck mk v (kv :: l) =
      (if kv.1 = ck then (kv.1, alistSet mk v kv.2) else kv) ::
        setCount ck mk v l := by
  unfold setCount
  rw [List.map_cons]
  by_cases h : kv.1 = ck
  · rw [if_pos (by rw [beq_iff_eq]; exact h), if_pos h]
  · rw [if_neg (by rw [beq_iff_eq]; exact h), if_neg h]

lemma alistGet_eq_some_of_mem {l : List (String × α)} {kv : String × α}
    (hnodup : (l.map Prod.fst).Nodup) (hm : kv ∈ l) :
    alistGet kv.1 l = some kv.2 := by
  induction l with
  | nil => cases hm
  | cons hd tl ih =>
    rw [alistGet_cons]
    rcases List.mem_cons.1 hm with rfl | hm
    · rw [if_pos rfl]
    · have hk : kv.1 ∈ tl.map Prod.fst := List.mem_map_of_mem Prod.fst hm
      have hne : hd.1 ≠ kv.1 := fun he =>
        (List.nodup_cons.1 hnodup).1 (he ▸ hk)
      rw [if_neg hne]
      exact ih (List.nodup_cons.1 hnodup).2 hm

lemma alistGet_eq_none_iff {l : List (String × α)} {k : String} :
    alistGet k l = none ↔ k ∉ l.map Prod.fst := by
  induction l with
  | nil => simp [alistGet]
  | cons hd tl ih =>
    rw [alistGet_cons, List.map_cons]
    by_cases h : hd.1 = k
    · rw [if_pos h]
      simp [h]
    · rw [if_neg h]
      simp only [List.mem_cons, not_or, ih]
      constructor
      · intro hn
        exact ⟨fun he => h he.symm, hn⟩
      · intro hn
        exact hn.2

lemma alistGet_alistSet_self (k : String) (v : α) (l : List (String × α)) :
    alistGet k (alistSet k v l) = some v := by
  induction l with
  | nil =>
    show alistGet k [(k, v)] = some v
    rw [alistGet_cons, if_pos rfl]
  | cons kv rest ih =>
    rw [alistSet_cons]
    by_cases h : kv.1 = k
    · rw [if_pos h, alistGet_cons, if_pos rfl]
    · rw [if_neg h, alistGet_cons, if_neg h]
      exact ih

lemma keys_alistSet_mem {k : String} {l : List (String × α)} (v : α)
    (h : k ∈ l.map Prod.fst) :
    (alistSet k v l).map Prod.fst = l.map Prod.fst := by
  induction l with
  | nil => cases h
  | cons kv rest ih =>
    rw [alistSet_cons]
    rw [List.map_cons] at h
    by_cases hk : kv.1 = k
    · rw [if_pos hk, List.map_cons, List.map_cons, hk]
    · rw [if_neg hk, List.map_cons, List.map_cons]
      rcases List.mem_cons.1 h with h1 | h1
      · exact absurd h1.symm hk
      · rw [ih h1]

lemma keys_alistSet_not_mem {k : String} {l : List (String × α)} (v : α)
    (h : k ∉ l.map Prod.fst) :
    (alistSet k v l).map Prod.fst = l.map Prod.fst ++ [k] := by
  induction l with
  | nil => simp [alistSet]
  | cons kv rest ih =>
    rw [alistSet_cons]
    have hk : kv.1 ≠ k := fun he => h (by simp [he])
    rw [if_neg hk, List.map_cons, List.map_cons,
      ih (fun hm => h (by simp [hm])), List.cons_append]

lemma keys_setCount (ck mk : String) (v : ℤ) (fd : FrameTable) :
    (setCount ck mk v fd).map Prod.fst = fd.map Prod.fst := by
  induction fd with
  | nil => rfl
  | cons kv rest ih =>
    rw [setCount_cons, List.map_cons, List.map_cons, ih]
    by_cases h : kv.1 = ck <;> simp [h]

lemma getCount_setCount {ck mk : String} {v : ℤ} {fd : FrameTable}
    (h : alistGet ck fd ≠ none) :
    getCount ck mk (setCount ck mk v fd) = some v := by
  induction fd with
  | nil => simp [alistGet] at h
  | cons kv rest ih =>
    rw [alistGet_cons] at h
    unfold getCount
    rw [setCount_cons]
    by_cases hk : kv.1 = ck
    · rw [if_pos hk, alistGet_cons, if_pos hk]
      show alistGet mk (alistSet mk v kv.2) = some v
      exact alistGet_alistSet_self mk v kv.2
    · rw [if_neg hk, alistGet_cons, if_neg hk]
      rw [if_neg hk] at h
      exact ih h


lemma match_character_name_cases (name : String) (fd : FrameTable) :
    (match_character_name name fd ∈ fd.map Prod.fst ∧
      normalize_key (match_character_name name fd) = normalize_key name) ∨
    (match_character_name name fd = name ∧
      ∀ k ∈ fd.map Prod.fst, normalize_key k ≠ normalize_key name) := by
  unfold match_character_name
  cases hf : fd.find? (fun kv => normalize_key kv.1 == normalize_key name) with
  | some kv =>
    have hm := List.mem_of_find?_eq_some hf
    have hp := List.find?_some hf
    rw [beq_iff_eq] at hp
    exact Or.inl ⟨List.mem_map_of_mem Prod.fst hm, hp⟩
  | none =>
    rw [List.find?_eq_none] at hf
    refine Or.inr ⟨rfl, fun k hk => ?_⟩
    obtain ⟨kv, hkv, rfl⟩ := List.mem_map.1 hk
    have := hf kv hkv
    rw [beq_iff_eq] at this
    exact this

lemma match_move_name_cases (character move : String) (fd : FrameTable) :
    (match_move_name character move fd ∈
        ((alistGet character fd).getD []).map Prod.fst ∧
      normalize_key (match_move_name character move fd) =
        normalize_key move) ∨
    (match_move_name character move fd = move ∧
      ∀ k ∈ ((alistGet character fd).getD []).map Prod.fst,
        normalize_key k ≠ normalize_key move) := by
  have hdef : match_move_name character move fd =
      match ((alistGet character fd).getD []).find?
        (fun kv => normalize_key kv.1 == normalize_key move) with
      | some kv => kv.1
      | none => move := rfl
  rw [hdef]
  cases hf : ((alistGet character fd).getD []).find?
      (fun kv => normalize_key kv.1 == normalize_key move) with
  | some kv =>
    have hm := List.mem_of_find?_eq_some hf
    have hp := List.find?_some hf
    rw [beq_iff_eq] at hp
    exact Or.inl ⟨List.mem_map_of_mem Prod.fst hm, hp⟩
  | none =>
    rw [List.find?_eq_none] at hf
    refine Or.inr ⟨rfl, fun k hk => ?_⟩
    obtain ⟨kv, hkv, rfl⟩ := List.mem_map.1 hk
    have := hf kv hkv
    rw [beq_iff_eq] at this
    exact this

instance (keys : List String) : Decidable (NoNormDup keys) := by
  unfold NoNormDup
  infer_instance

instance (fd : FrameTable) : Decidable (TableInv fd) := by
  unfold TableInv
  infer_instance

lemma ensureLoop_nil (ck mk : String) (fd : FrameTable) :
    ensureLoop ck mk fd [] =
      match getCount ck mk fd with
      | some frames => some (frames, fd)
      | none => none := rfl

lemma ensureLoop_cons (ck mk : String) (fd : FrameTable) (i : String)
    (rest : List String) :
    ensureLoop ck mk fd (i :: rest) =
      match getCount ck mk fd with
      | some frames => some (frames, fd)
      | none =>
        if (pyStrip i).isEmpty then ensureLoop ck mk fd rest
        else if (pyStrip i).all Char.isDigit then
          ensureLoop ck mk (setCount ck mk (digitsVal (pyStrip i) : ℤ) fd)
            rest
        else ensureLoop ck mk fd rest := rfl

lemma ensureLoop_cases {ck mk : String} {n : ℤ} :
    ∀ {inputs : List String} {fd fd' : FrameTable},
      alistGet ck fd ≠ none →
      ensureLoop ck mk fd inputs = some (n, fd') →
      (fd' = fd ∨ ∃ v : ℤ, fd' = setCount ck mk v fd) := by
  intro inputs
  induction inputs with
  | nil =>
    intro fd fd' hget h
    rw [ensureLoop_nil] at h
    cases hg : getCount ck mk fd with
    | some frames =>
      simp only [hg] at h
      injection h with h1
      injection h1 with h2 h3
      exact Or.inl h3.symm
    | none =>
      simp only [hg] at h
      cases h
  | cons i rest ih =>
    intro fd fd' hget h
    rw [ensureLoop_cons] at h
    cases hg : getCount ck mk fd with
    | some frames =>
      simp only [hg] at h
      injection h with h1
      injection h1 with h2 h3
      exact Or.inl h3.symm
    | none =>
      simp only [hg] at h
      by_cases he : (pyStrip i).isEmpty
      · rw [if_pos he] at h
        exact ih hget h
      · rw [if_neg he] at h
        by_cases hd : (pyStrip i).all Char.isDigit
        · rw [if_pos hd] at h
          cases rest with
          | nil =>
            rw [ensureLoop_nil] at h
            rw [@getCount_setCount ck mk ((digitsVal (pyStrip i) : ℤ)) fd
              hget] at h
            simp only [] at h
            injection h with h1
            injection h1 with h2 h3
            exact Or.inr ⟨_, h3.symm⟩
          | cons j rest2 =>
            rw [ensureLoop_cons] at h
            rw [@getCount_setCount ck mk ((digitsVal (pyStrip i) : ℤ)) fd
              hget] at h
            simp only [] at h
            injection h with h1
            injection h1 with h2 h3
            exact Or.inr ⟨_, h3.symm⟩
        · rw [if_neg hd] at h
          exact ih hget h

lemma alistGet_append_of_none {k : String} {l1 : List (String × α)}
    (h : alistGet k l1 = none) (l2 : List (String × α)) :
    alistGet k (l1 ++ l2) = alistGet k l2 := by
  induction l1 with
  | nil => rfl
  | cons kv rest ih =>
    rw [alistGet_cons] at h
    rw [List.cons_append, alistGet_cons]
    by_cases hk : kv.1 = k
    · rw [if_pos hk] at h
      cases h
    · rw [if_neg hk] at h ⊢
      exact ih h

lemma TableInv_setCount {fd : FrameTable} {ck mk : String} {v : ℤ}
    (hinv : TableInv fd)
    (hmk : ∀ mt, alistGet ck fd = some mt →
      mk ∈ mt.map Prod.fst ∨
        ∀ k ∈ mt.map Prod.fst, normalize_key k ≠ normalize_key mk) :
    TableInv (setCount ck mk v fd) := by
  constructor
  · rw [keys_setCount]
    exact hinv.1
  · intro kv' hkv'
    unfold setCount at hkv'
    obtain ⟨kv, hkv, hkv'eq⟩ := List.mem_map.1 hkv'
    by_cases hk : kv.1 = ck
    · rw [if_pos (by rw [beq_iff_eq]; exact hk)] at hkv'eq
      subst hkv'eq
      show NoNormDup ((alistSet mk v kv.2).map Prod.fst)
      have hgkv : alistGet ck fd = some kv.2 := by
        rw [← hk]
        exact alistGet_eq_some_of_mem hinv.1.nodup hkv
      rcases hmk kv.2 hgkv with hmem | hno
      · rw [keys_alistSet_mem v hmem]
        exact hinv.2 kv hkv
      · have hnotmem : mk ∉ kv.2.map Prod.fst := fun hm => hno mk hm rfl
        rw [keys_alistSet_not_mem v hnotmem]
        rw [NoNormDup, List.pairwise_append]
        refine ⟨hinv.2 kv hkv, List.pairwise_singleton _ _, ?_⟩
        intro a ha b hb
        rw [List.mem_singleton] at hb
        subst hb
        exact hno a ha
    · rw [if_neg (by rw [beq_iff_eq]; exact hk)] at hkv'eq
      subst hkv'eq
      exact hinv.2 kv hkv

/-- C9: `ensure_move_frames` preserves the no-normalized-duplicates
invariant: starting from a table in which no two keys at the same mapping
level normalize equal, any table it returns still satisfies that invariant,
and the only possible new top-level key is the literal queried character
name, inserted only when no stored key normalizes equal to it (never a
second casing of an existing normalized key). -/
theorem ensure_move_frames_preserves_inv
    (character move : String) (fd : FrameTable) (inputs : List String)
    (n : ℤ) (fd' : FrameTable) (hinv : TableInv fd)
    (h : ensure_move_frames character move fd inputs = some (n, fd')) :
    TableInv fd' ∧
      ∀ k ∈ fd'.map Prod.fst, k ∈ fd.map Prod.fst ∨
        (k = character ∧ ∀ k0 ∈ fd.map Prod.fst,
          normalize_key k0 ≠ normalize_key character) := by
  have h' : ensureLoop (match_character_name character fd)
      (match_move_name (match_character_name character fd) move
        (alistSetdefault (match_character_name character fd) [] fd))
      (alistSetdefault (match_character_name character fd) [] fd) inputs =
      some (n, fd') := h
  set ck := match_character_name character fd with hck
  set fd1 := alistSetdefault ck [] fd with hfd1
  set mk := match_move_name ck move fd1 with hmk
  have hfd1cases : fd1 = fd ∨
      (fd1 = fd ++ [(ck, [])] ∧ ck = character ∧
        ∀ k ∈ fd.map Prod.fst,
          normalize_key k ≠ normalize_key character) := by
    cases hg : alistGet ck fd with
    | some mt =>
      left
      rw [hfd1]
      unfold alistSetdefault
      rw [hg]
    | none =>
      right
      have hnotmem : ck ∉ fd.map Prod.fst := alistGet_eq_none_iff.1 hg
      rcases match_character_name_cases character fd with ⟨hmem, _⟩ |
        ⟨heq, hno⟩
      · rw [← hck] at hmem
        exact absurd hmem hnotmem
      · rw [← hck] at heq
        refine ⟨?_, heq, hno⟩
        rw [hfd1]
        unfold alistSetdefault
        rw [hg]
  have hget1 : alistGet ck fd1 ≠ none := by
    cases hg : alistGet ck fd with
    | some mt =>
      have hfd1' : fd1 = fd := by
        rw [hfd1]
        unfold alistSetdefault
        rw [hg]
      rw [hfd1', hg]
      exact Option.some_ne_none mt
    | none =>
      have hfd1' : fd1 = fd ++ [(ck, [])] := by
        rw [hfd1]
        unfold alistSetdefault
        rw [hg]
      rw [hfd1', alistGet_append_of_none hg, alistGet_cons, if_pos rfl]
      exact Option.some_ne_none _
  have hinv1 : TableInv fd1 := by
    rcases hfd1cases with hfd1' | ⟨hfd1', hckchar, hno⟩
    · rw [hfd1']
      exact hinv
    · rw [hfd1']
      constructor
      · rw [List.map_append, List.map_singleton]
        rw [NoNormDup, List.pairwise_append]
        refine ⟨hinv.1, List.pairwise_singleton _ _, ?_⟩
        intro a ha b hb
        rw [List.mem_singleton] at hb
        subst hb
        show normalize_key a ≠ normalize_key ck
        rw [hckchar]
        exact hno a ha
      · intro kv hkv
        rcases List.mem_append.1 hkv with hkv | hkv
        · exact hinv.2 kv hkv
        · rw [List.mem_singleton] at hkv
          subst hkv
          exact List.Pairwise.nil
  have hkeys1 : ∀ k ∈ fd1.map Prod.fst, k ∈ fd.map Prod.fst ∨
      (k = character ∧ ∀ k0 ∈ fd.map Prod.fst,
        normalize_key k0 ≠ normalize_key character) := by
    rcases hfd1cases with hfd1' | ⟨hfd1', hckchar, hno⟩
    · rw [hfd1']
      exact fun k hk => Or.inl hk
    · rw [hfd1', List.map_append, List.map_singleton]
      intro k hk
      rcases List.mem_append.1 hk with hk | hk
      · exact Or.inl hk
      · rw [List.mem_singleton] at hk
        subst hk
        exact Or.inr ⟨hckchar, hno⟩
  have hmkcond : ∀ mt, alistGet ck fd1 = some mt →
      mk ∈ mt.map Prod.fst ∨
        ∀ k ∈ mt.map Prod.fst, normalize_key k ≠ normalize_key mk := by
    intro mt hmt
    rcases match_move_name_cases ck move fd1 with ⟨hmem, _⟩ | ⟨heq, hno⟩
    · left
      rw [← hmk] at hmem
      rw [hmt, Option.getD_some] at hmem
      exact hmem
    · right
      intro k hk
      rw [hmk, heq]
      apply hno
      rw [hmt, Option.getD_some]
      exact hk
  rcases ensureLoop_cases hget1 h' with hfd' | ⟨v, hfd'⟩
  · subst hfd'
    exact ⟨hinv1, hkeys1⟩
  · subst hfd'
    refine ⟨TableInv_setCount hinv1 hmkcond, ?_⟩
    rw [keys_setCount]
    exact hkeys1

/-- Witness for C9 at a concrete input: adding move `"jab"` with count 12
for the queried character `"ryu"` (stored as `"Ryu"`) keeps the invariant. -/
theorem ensure_move_frames_preserves_inv_witness :
    TableInv [("Ryu", [("Hadouken", 7), ("jab", 12)])] ∧
      ∀ k ∈ ([("Ryu", [("Hadouken", 7), ("jab", 12)])] : FrameTable).map
          Prod.fst,
        k ∈ ([("Ryu", [("Hadouken", 7)])] : FrameTable).map Prod.fst ∨
          (k = "ryu" ∧ ∀ k0 ∈ ([("Ryu", [("Hadouken", 7)])] :
              FrameTable).map Prod.fst,
            normalize_key k0 ≠ normalize_key "ryu") :=
  ensure_move_frames_preserves_inv "ryu" "jab" [("Ryu", [("Hadouken", 7)])]
    ["12"] 12 [("Ryu", [("Hadouken", 7), ("jab", 12)])]
    (by decide) (by decide)
